import Mathlib

/-!
Verification development for the `doge-hmm` Rust crate (regime detection core).

Embedding conventions:
* `f64` values are embedded as exact rationals `ℚ`.  With rational inputs the
  only not-a-number source in the feature pipeline is the RSI warm-up, which is
  embedded as `Option ℚ` (`none` = NaN / non-finite).
* The transcendental pieces of the Gaussian emission density (`exp`, `ln`, π)
  are not rational-representable; they are passed as abstract oracle parameters
  (`expF lnF : ℚ → ℚ`, `piQ : ℚ`).  All stated properties hold for every
  choice of oracle, because the code floors every emission at `EPS` and
  renormalizes every probability vector.
* Wall-clock time (`now_ts()` in the source) is passed as an explicit `now : ℚ`
  argument.
* Rust `Vec<f64>` is `List ℚ`; fallible operations return `Except String`.
-/

namespace DogeHmm

/-! ## Definitions (shallow embedding of the source) -/

def sumRange (n : ℕ) (f : ℕ → ℚ) : ℚ :=
  ((List.range n).map f).sum

/-- `clamp` from `math/ema.rs`. -/
def clamp (value lo hi : ℚ) : ℚ :=
  if value < lo then lo
  else if value > hi then hi
  else value

/-- Tail recursion of `ema_series`: each output value is
`alpha * x + (1 - alpha) * prev`. -/
def emaGo (alpha : ℚ) (prev : ℚ) : List ℚ → List ℚ
  | [] => []
  | x :: xs =>
    let v := alpha * x + (1 - alpha) * prev
    v :: emaGo alpha v xs

/-- `ema_series` from `math/ema.rs`: seeded with the first element,
smoothing weight `alpha = 2 / (max span 1 + 1)`. -/
def ema_series (series : List ℚ) (span : ℕ) : List ℚ :=
  match series with
  | [] => []
  | s0 :: rest =>
    let alpha : ℚ := 2 / ((max span 1 : ℕ) + 1)
    s0 :: emaGo alpha s0 rest

/-- `diff` from `math/ema.rs`: first differences, 0 at index 0. -/
def diff (series : List ℚ) : List ℚ :=
  match series with
  | [] => []
  | _ :: _ =>
    0 :: (List.range (series.length - 1)).map
      (fun i => series.getD (i + 1) 0 - series.getD i 0)

/-- Wilder smoothing state of `rsi_series` at offset `k` past the seed index:
index `p` holds the seeds (plain averages of the first `p` gains/losses), and
each following index applies `avg = (avg * (p - 1) + x) / p`. -/
def wilderAt (p : ℕ) (gains losses : List ℚ) (seedG seedL : ℚ) : ℕ → ℚ × ℚ
  | 0 => (seedG, seedL)
  | k + 1 =>
    let gl := wilderAt p gains losses seedG seedL k
    (((gl.1 * ((p : ℚ) - 1) + gains.getD (p + k) 0) / p),
     ((gl.2 * ((p : ℚ) - 1) + losses.getD (p + k) 0) / p))

/-- `rsi_series` from `math/ema.rs`.  `none` stands for the `f64::NAN` entries
of the Rust output (warm-up indices `< max period 1`, or the whole output when
`closes.length ≤ max period 1`). -/
def rsi_series (closes : List ℚ) (period : ℕ) : List (Option ℚ) :=
  if closes = [] then []
  else
    let n := closes.length
    let p := max period 1
    if n ≤ p then List.replicate n none
    else
      let deltas := (List.range (n - 1)).map (fun i => closes.getD (i + 1) 0 - closes.getD i 0)
      let gains := deltas.map (fun d => if d > 0 then d else 0)
      let losses := deltas.map (fun d => if d > 0 then 0 else -d)
      let seedG := (gains.take p).sum / p
      let seedL := (losses.take p).sum / p
      (List.range n).map (fun i =>
        if i < p then none
        else
          let gl := wilderAt p gains losses seedG seedL (i - p)
          let rs := gl.1 / max gl.2 (1 / 10 ^ 10)
          some (100 - 100 / (1 + rs)))

/-- `normalize_probs` from `math/baum_welch.rs`: clamp negative (or, in `f64`,
non-finite) entries to 0; fall back to `[0, 1, 0]` on a non-positive sum. -/
def normalize_probs (probs : ℚ × ℚ × ℚ) : ℚ × ℚ × ℚ :=
  let a := if probs.1 < 0 then 0 else probs.1
  let b := if probs.2.1 < 0 then 0 else probs.2.1
  let c := if probs.2.2 < 0 then 0 else probs.2.2
  let sum := a + b + c
  if sum ≤ 0 then (0, 1, 0)
  else (a / sum, b / sum, c / sum)

/-- `FeatureExtractor` configuration fields (`features.rs`). -/
structure FeatureExtractor where
  fast_ema_periods : ℕ
  slow_ema_periods : ℕ
  macd_fast : ℕ
  macd_slow : ℕ
  macd_signal : ℕ
  rsi_period : ℕ
  volume_avg_period : ℕ
  deriving DecidableEq

/-- `FeatureExtractor::default()`: `new(9, 21, 12, 26, 9, 14, 20)`. -/
def FeatureExtractor.defaultCfg : FeatureExtractor :=
  ⟨9, 21, 12, 26, 9, 14, 20⟩

/-- The per-index candidate rows of `FeatureExtractor::extract_rows` (the body
of the output loop, before the all-finite filter).  With rational inputs the
only non-finite component is the RSI zone during warm-up, so a candidate row is
`none` exactly when `rsi_series` is NaN at that index; a `some` row holds the
four finite components `[macd_hist_slope, ema_spread_pct, rsi_zone,
volume_ratio]`. -/
def FeatureExtractor.candidateRows (fe : FeatureExtractor) (closes volumes : List ℚ) :
    List (Option (List ℚ)) :=
  let n := closes.length
  let fastE := ema_series closes (max fe.fast_ema_periods 1)
  let slowE := ema_series closes (max fe.slow_ema_periods 1)
  let macdFastE := ema_series closes (max fe.macd_fast 1)
  let macdSlowE := ema_series closes (max fe.macd_slow 1)
  let macdLine := (List.range n).map (fun i => macdFastE.getD i 0 - macdSlowE.getD i 0)
  let macdSig := ema_series macdLine (max fe.macd_signal 1)
  let macdHist := (List.range n).map (fun i => macdLine.getD i 0 - macdSig.getD i 0)
  let slope := diff macdHist
  let rsiRaw := rsi_series closes (max fe.rsi_period 1)
  let volAvg := ema_series volumes (max fe.volume_avg_period 1)
  (List.range n).map (fun i =>
    let slow := slowE.getD i 0
    let emaSpreadPct := if |slow| ≤ 1 / 10 ^ 10 then 0 else (fastE.getD i 0 - slow) / slow
    let denom := max |volAvg.getD i 0| (1 / 10 ^ 10)
    let volRatio := volumes.getD i 0 / denom
    match rsiRaw.getD i none with
    | none => none
    | some r => some [slope.getD i 0, emaSpreadPct, clamp ((r - 50) / 50) (-1) 1, volRatio])

/-- `FeatureExtractor::extract_rows`: length-mismatch error, empty output for
fewer than 2 points, otherwise the candidate rows with non-finite rows
dropped. -/
def FeatureExtractor.extract_rows (fe : FeatureExtractor) (closes volumes : List ℚ) :
    Except String (List (List ℚ)) :=
  if closes.length ≠ volumes.length then
    .error "closes and volumes must be same length"
  else if closes.length < 2 then .ok []
  else .ok ((fe.candidateRows closes volumes).reduceOption)

/-- `EPS` from `hmm.rs` (`1e-12`). -/
def EPS : ℚ := 1 / 10 ^ 12

/-- `MIN_VAR` from `hmm.rs` (`1e-6`). -/
def MIN_VAR : ℚ := 1 / 10 ^ 6

/-- `GaussianHmm` model state (`hmm.rs`). -/
structure GaussianHmm where
  n_states : ℕ
  n_features : ℕ
  trained : Bool
  training_depth : ℕ
  initial_probs : List ℚ
  transition_matrix : List (List ℚ)
  means : List (List ℚ)
  covars : List (List ℚ)

/-- `GaussianHmm::default_transition`: 0.80 on the diagonal, the remaining
0.20 split uniformly off-diagonal (`[[1.0]]` for a single state). -/
def default_transition (n_states : ℕ) : List (List ℚ) :=
  if n_states = 1 then [[1]]
  else
    let offDiag : ℚ := (1 / 5) / ((n_states : ℚ) - 1)
    (List.range n_states).map (fun i =>
      (List.range n_states).map (fun j => if i = j then 4 / 5 else offDiag))

/-- `GaussianHmm::new`: clamps `n_states ≥ 2` and `n_features ≥ 1`, uniform
initial distribution, diagonal-dominant default transition matrix. -/
def GaussianHmm.new (n_states n_features : ℕ) : GaussianHmm :=
  let states := max n_states 2
  let features := max n_features 1
  { n_states := states
    n_features := features
    trained := false
    training_depth := 0
    initial_probs := List.replicate states ((1 : ℚ) / states)
    transition_matrix := default_transition states
    means := List.replicate states (List.replicate features 0)
    covars := List.replicate states (List.replicate features 1) }

/-- `GaussianHmm::default_probs`: `[0, 1, 0]` for 3 states, else uniform. -/
def GaussianHmm.default_probs (m : GaussianHmm) : List ℚ :=
  if m.n_states = 3 then [0, 1, 0]
  else List.replicate m.n_states ((1 : ℚ) / m.n_states)

/-- `GaussianHmm::gaussian_logpdf_diag` with the logarithm and π supplied by
the oracle parameters `lnF`/`piQ`. -/
def GaussianHmm.gaussian_logpdf_diag (m : GaussianHmm) (lnF : ℚ → ℚ) (piQ : ℚ)
    (row : List ℚ) (s : ℕ) : ℚ :=
  sumRange m.n_features (fun f =>
    let var := max ((m.covars.getD s []).getD f 0) MIN_VAR
    let dv := row.getD f 0 - ((m.means.getD s []).getD f 0)
    (-1 / 2 : ℚ) * (lnF (2 * piQ * var) + dv * dv / var))

/-- `GaussianHmm::emission_likelihoods` with `exp` supplied by the oracle
`expF`.  The per-step maximum log-density (seeded at `f64::NEG_INFINITY` in
the source, hence equal to the list maximum for a nonempty state list) is
subtracted before exponentiation, and the result floored at `EPS`. -/
def GaussianHmm.emission_likelihoods (m : GaussianHmm) (expF lnF : ℚ → ℚ) (piQ : ℚ)
    (observations : List (List ℚ)) : List (List ℚ) :=
  observations.map (fun row =>
    let logProbs := (List.range m.n_states).map (fun s => m.gaussian_logpdf_diag lnF piQ row s)
    let maxLog := match logProbs with
      | [] => 0
      | h :: t => t.foldl max h
    logProbs.map (fun lp => max (expF (lp - maxLog)) EPS))

/-- One step of the scaled forward recursion (`forward_scaled`, `t ≥ 1` case):
unnormalized `alpha[t][j] = (Σ_i alpha[t-1][i] * trans[i][j]) * emission[t][j]`,
then per-step normalization with the scale floored at `EPS`. -/
def GaussianHmm.forwardStep (m : GaussianHmm) (prev : List ℚ) (et : List ℚ) :
    List ℚ × ℚ :=
  let un := (List.range m.n_states).map (fun j =>
    (sumRange m.n_states (fun i =>
      prev.getD i 0 * ((m.transition_matrix.getD i []).getD j 0))) * et.getD j 0)
  let s := un.sum
  let sc := if s ≤ EPS then EPS else s
  (un.map (· / sc), sc)

/-- The `t = 1..` rows of the scaled forward pass, given the normalized row
at the previous step. -/
def GaussianHmm.forwardRows (m : GaussianHmm) (prev : List ℚ) :
    List (List ℚ) → List (List ℚ) × List ℚ
  | [] => ([], [])
  | et :: rest =>
    let rs := m.forwardStep prev et
    let tl := m.forwardRows rs.1 rest
    (rs.1 :: tl.1, rs.2 :: tl.2)

/-- `GaussianHmm::forward_scaled`: row 0 is `initial_probs * emission[0]`
normalized (scale floored at `EPS`), later rows via `forwardStep`.  The Rust
function is only reached with at least one observation; the `[]` case is
unreachable there and returns empty results here. -/
def GaussianHmm.forward_scaled (m : GaussianHmm) (emissions : List (List ℚ)) :
    List (List ℚ) × List ℚ :=
  match emissions with
  | [] => ([], [])
  | e0 :: rest =>
    let un := (List.range m.n_states).map (fun s => m.initial_probs.getD s 0 * e0.getD s 0)
    let s0 := un.sum
    let sc0 := if s0 ≤ EPS then EPS else s0
    let a0 := un.map (· / sc0)
    let tl := m.forwardRows a0 rest
    (a0 :: tl.1, sc0 :: tl.2)

/-- The scaled backward row `beta[t]` at distance `k = T - 1 - t` from the
final time step: ones at the last step, then
`beta[t][i] = (Σ_j trans[i][j] * emission[t+1][j] * beta[t+1][j]) / scale[t+1]`
(with `scale[t+1]` floored at `EPS`). -/
def GaussianHmm.betaAt (m : GaussianHmm) (emissions : List (List ℚ)) (scales : List ℚ) :
    ℕ → List ℚ
  | 0 => List.replicate m.n_states 1
  | k + 1 =>
    let next := m.betaAt emissions scales k
    let idx := emissions.length - 1 - k
    let e := emissions.getD idx []
    let scNext := max (scales.getD idx 0) EPS
    (List.range m.n_states).map (fun i =>
      (sumRange m.n_states (fun j =>
        ((m.transition_matrix.getD i []).getD j 0) * e.getD j 0 * next.getD j 0)) / scNext)

/-- `GaussianHmm::backward_scaled`. -/
def GaussianHmm.backward_scaled (m : GaussianHmm) (emissions : List (List ℚ))
    (scales : List ℚ) : List (List ℚ) :=
  (List.range emissions.length).map (fun t =>
    m.betaAt emissions scales (emissions.length - 1 - t))

/-- `GaussianHmm::compute_gamma`: per-step normalized product of `alpha` and
`beta` rows, sum floored at `EPS` before dividing. -/
def compute_gamma (alpha beta : List (List ℚ)) : List (List ℚ) :=
  List.zipWith (fun arow brow =>
    let g := List.zipWith (fun a b => a * b) arow brow
    let s := g.sum
    let sc := if s ≤ EPS then EPS else s
    g.map (· / sc)) alpha beta

/-- `GaussianHmm::compute_xi_sums`: pairwise transition expectations and
per-state occupancies.  Steps whose joint denominator is `≤ EPS` contribute
nothing (the Rust loop `continue`s); the accumulation is expressed as a sum
over the skipped/unskipped steps, which equals the imperative accumulation. -/
def GaussianHmm.compute_xi_sums (m : GaussianHmm) (alpha beta emissions : List (List ℚ)) :
    List (List ℚ) × List ℚ :=
  let tLen := alpha.length
  if tLen < 2 then
    (List.replicate m.n_states (List.replicate m.n_states 0), List.replicate m.n_states 0)
  else
    let term := fun (t i j : ℕ) =>
      (alpha.getD t []).getD i 0 * ((m.transition_matrix.getD i []).getD j 0) *
        ((emissions.getD (t + 1) []).getD j 0) * ((beta.getD (t + 1) []).getD j 0)
    let denom := fun (t : ℕ) =>
      sumRange m.n_states (fun i => sumRange m.n_states (fun j => term t i j))
    let xiSum := (List.range m.n_states).map (fun i =>
      (List.range m.n_states).map (fun j =>
        sumRange (tLen - 1) (fun t => if denom t ≤ EPS then 0 else term t i j / denom t)))
    let gammaSumTrans := (List.range m.n_states).map (fun i =>
      sumRange (tLen - 1) (fun t =>
        if denom t ≤ EPS then 0 else sumRange m.n_states (fun j => term t i j / denom t)))
    (xiSum, gammaSumTrans)

/-- `GaussianHmm::update_emissions`: `gamma`-weighted means and variances per
state and feature; states with occupancy `≤ EPS` keep their previous
parameters; variances floored at `MIN_VAR`. -/
def GaussianHmm.update_emissions (m : GaussianHmm) (observations gamma : List (List ℚ)) :
    GaussianHmm :=
  let tLen := observations.length
  let gammaSum := fun (s : ℕ) => sumRange tLen (fun t => (gamma.getD t []).getD s 0)
  let means2 := (List.range m.n_states).map (fun s =>
    if gammaSum s ≤ EPS then m.means.getD s []
    else (List.range m.n_features).map (fun f =>
      sumRange tLen (fun t =>
        (gamma.getD t []).getD s 0 * ((observations.getD t []).getD f 0)) / gammaSum s))
  let covars2 := (List.range m.n_states).map (fun s =>
    if gammaSum s ≤ EPS then m.covars.getD s []
    else (List.range m.n_features).map (fun f =>
      let mean := (means2.getD s []).getD f 0
      max (sumRange tLen (fun t =>
        (gamma.getD t []).getD s 0 * (((observations.getD t []).getD f 0) - mean) *
          (((observations.getD t []).getD f 0) - mean)) / gammaSum s) MIN_VAR))
  { m with means := means2, covars := covars2 }

/-- `GaussianHmm::normalize_probs_in_place` as a pure function: clamp negative
(or, in `f64`, non-finite) entries to 0; on a sum `≤ EPS` fall back to the
uniform distribution `1 / max len 1`; otherwise divide by the sum. -/
def normalize_probs_in_place (values : List ℚ) : List ℚ :=
  let clamped := values.map (fun v => if v < 0 then 0 else v)
  let s := clamped.sum
  if s ≤ EPS then clamped.map (fun _ => (1 : ℚ) / (max values.length 1 : ℕ))
  else clamped.map (· / s)

/-- Stable insertion (ascending in the second component) modelling the Rust
stable `sort_by` over `(index, value)` pairs in `initialize_from_data`. -/
def insertAscBySnd (x : ℕ × ℚ) : List (ℕ × ℚ) → List (ℕ × ℚ)
  | [] => [x]
  | y :: ys => if x.2 < y.2 then x :: y :: ys else y :: insertAscBySnd x ys

/-- Stable sort by second component, ascending. -/
def sortAscBySnd : List (ℕ × ℚ) → List (ℕ × ℚ)
  | [] => []
  | x :: xs => insertAscBySnd x (sortAscBySnd xs)

/-- The data-driven seeding step of `fit` (`hmm.rs`, lines 135-180):
quantile-seeded means along feature 1, shared global variance floored at
`MIN_VAR`, uniform initial distribution and default transition matrix. -/
def GaussianHmm.init_from_data (m : GaussianHmm) (observations : List (List ℚ)) :
    GaussianHmm :=
  let tLen := observations.length
  let spreadIndexed := observations.enum.map (fun ir => (ir.1, ir.2.getD 1 0))
  let sorted := sortAscBySnd spreadIndexed
  let globalMean := (List.range m.n_features).map (fun f =>
    sumRange tLen (fun t => (observations.getD t []).getD f 0) / tLen)
  let globalVar := (List.range m.n_features).map (fun f =>
    max (sumRange tLen (fun t =>
      ((observations.getD t []).getD f 0 - globalMean.getD f 0) *
        ((observations.getD t []).getD f 0 - globalMean.getD f 0)) / tLen) MIN_VAR)
  let means2 := (List.range m.n_states).map (fun s =>
    let pos := (⌊(((s : ℚ) + 1 / 2) * tLen / m.n_states)⌋).toNat
    let posIdx := min pos (tLen - 1)
    let obsIdx := (sorted.getD posIdx (0, 0)).1
    let seed := observations.getD obsIdx []
    (List.range m.n_features).map (fun f => seed.getD f 0))
  let covars2 := (List.range m.n_states).map (fun _ =>
    (List.range m.n_features).map (fun f => globalVar.getD f 0))
  { m with
    means := means2
    covars := covars2
    initial_probs := List.replicate m.n_states ((1 : ℚ) / m.n_states)
    transition_matrix := default_transition m.n_states }

/-- One iteration of the Baum-Welch E/M loop in `GaussianHmm::fit`. -/
def GaussianHmm.emStep (m : GaussianHmm) (observations : List (List ℚ))
    (expF lnF : ℚ → ℚ) (piQ : ℚ) : GaussianHmm :=
  let emissions := m.emission_likelihoods expF lnF piQ observations
  let fw := m.forward_scaled emissions
  let alpha := fw.1
  let scales := fw.2
  let beta := m.backward_scaled emissions scales
  let gamma := compute_gamma alpha beta
  let xi := m.compute_xi_sums alpha beta emissions
  let ip := normalize_probs_in_place (gamma.headD [])
  let tm := (List.range m.n_states).map (fun i =>
    if (xi.2.getD i 0) ≤ EPS then m.transition_matrix.getD i []
    else normalize_probs_in_place ((List.range m.n_states).map (fun j =>
      (xi.1.getD i []).getD j 0 / xi.2.getD i 0)))
  GaussianHmm.update_emissions
    { m with initial_probs := ip, transition_matrix := tm } observations gamma

/-- `GaussianHmm::fit`: input checks, data-driven seeding, `max n_iter 1`
EM iterations, then mark trained and record the training depth. -/
def GaussianHmm.fit (m : GaussianHmm) (observations : List (List ℚ)) (n_iter : ℕ)
    (expF lnF : ℚ → ℚ) (piQ : ℚ) : Except String GaussianHmm :=
  if observations.length < 2 then .error "need at least 2 observations"
  else if m.n_features ≠ 4 then .error "model expects 4-feature observations"
  else
    let iters := max n_iter 1
    let m2 := (List.range iters).foldl
      (fun mm _ => mm.emStep observations expF lnF piQ) (m.init_from_data observations)
    .ok { m2 with trained := true, training_depth := observations.length }

/-- `GaussianHmm::predict_last_proba`: default distribution when untrained or
given no observations, otherwise the last row of the scaled forward pass. -/
def GaussianHmm.predict_last_proba (m : GaussianHmm) (expF lnF : ℚ → ℚ) (piQ : ℚ)
    (observations : List (List ℚ)) : List ℚ :=
  if m.trained = false ∨ observations = [] then m.default_probs
  else
    let emissions := m.emission_likelihoods expF lnF piQ observations
    ((m.forward_scaled emissions).1.getLast?).getD m.default_probs

/-- `Regime::BEARISH as i32`. -/
def BEARISH : ℤ := 0

/-- `Regime::RANGING as i32`. -/
def RANGING : ℤ := 1

/-- `Regime::BULLISH as i32`. -/
def BULLISH : ℤ := 2

/-- `RegimeState` (`regime.rs`). -/
structure RegimeState where
  regime : ℤ
  probabilities : List ℚ
  confidence : ℚ
  bias_signal : ℚ
  last_update_ts : ℚ
  observation_count : ℕ
  deriving DecidableEq

/-- `TertiaryTransition` (`regime.rs`). -/
structure TertiaryTransition where
  from_regime : ℤ
  to_regime : ℤ
  confirmation_count : ℤ
  confirmed : Bool
  changed_at : ℚ
  transition_age_sec : ℚ
  deriving DecidableEq

/-- `TertiaryTransition::default()`. -/
def TertiaryTransition.defaultTT : TertiaryTransition :=
  { from_regime := RANGING
    to_regime := RANGING
    confirmation_count := 0
    confirmed := false
    changed_at := 0
    transition_age_sec := 0 }

/-- `HmmConfig` (`regime.rs`). -/
structure HmmConfig where
  n_states : ℕ
  n_iter : ℕ
  inference_window : ℕ
  confidence_threshold : ℚ
  retrain_interval_sec : ℚ
  min_train_samples : ℕ
  bias_gain : ℚ
  blend_with_trend : ℚ
  deriving DecidableEq

/-- `HmmConfig::default()`. -/
def HmmConfig.defaultCfg : HmmConfig :=
  { n_states := 3
    n_iter := 100
    inference_window := 50
    confidence_threshold := 15 / 100
    retrain_interval_sec := 86400
    min_train_samples := 500
    bias_gain := 1
    blend_with_trend := 1 / 2 }

/-- The clamping applied to a supplied configuration in `RegimeDetector::new`
(`HMM_N_STATES` forced to 3, floors on the numeric options,
`blend_with_trend` clamped to `[0, 1]`). -/
def HmmConfig.clamped (c : HmmConfig) : HmmConfig :=
  { n_states := 3
    n_iter := max c.n_iter 10
    inference_window := max c.inference_window 5
    confidence_threshold := max c.confidence_threshold 0
    retrain_interval_sec := max c.retrain_interval_sec 1
    min_train_samples := max c.min_train_samples 5
    bias_gain := max c.bias_gain 0
    blend_with_trend := clamp c.blend_with_trend 0 1 }

/-- `RegimeDetector` (`regime.rs`). -/
structure RegimeDetector where
  state : RegimeState
  _trained : Bool
  _last_train_ts : ℚ
  training_depth : ℤ
  tertiary_transition : TertiaryTransition
  cfg : HmmConfig
  extractor : FeatureExtractor
  model : Option GaussianHmm
  label_map : List ℕ

/-- `RegimeDetector::new`: ranging initial state, untrained, default
extractor, no model, identity label map.  A `some` argument models a supplied
Python config dict (clamped as in the source); `none` models the no-config
path. -/
def RegimeDetector.new (config : Option HmmConfig) : RegimeDetector :=
  let cfg := match config with
    | some c => c.clamped
    | none => { HmmConfig.defaultCfg with n_states := 3 }
  { state :=
      { regime := RANGING
        probabilities := [0, 1, 0]
        confidence := 0
        bias_signal := 0
        last_update_ts := 0
        observation_count := 0 }
    _trained := false
    _last_train_ts := 0
    training_depth := 0
    tertiary_transition := TertiaryTransition.defaultTT
    cfg := cfg
    extractor := FeatureExtractor.defaultCfg
    model := none
    label_map := [0, 1, 2] }

/-- `quality_tier_for_depth` (`regime.rs`). -/
def quality_tier_for_depth (depth : ℤ) : String :=
  let d := max depth 0
  if d ≤ 999 then "shallow"
  else if d ≤ 2499 then "baseline"
  else if d ≤ 3999 then "deep"
  else "full"

/-- `confidence_modifier_for_depth` (`regime.rs`). -/
def confidence_modifier_for_depth (depth : ℤ) : ℚ :=
  match quality_tier_for_depth depth with
  | "shallow" => 70 / 100
  | "baseline" => 85 / 100
  | "deep" => 95 / 100
  | _ => 1

/-- `round4` (`regime.rs`): round to 4 decimal places with `f64::round`
semantics (half away from zero). -/
def rustRound (q : ℚ) : ℤ :=
  if q < 0 then -(⌊-q + 1 / 2⌋) else ⌊q + 1 / 2⌋

/-- `round4` from `regime.rs`. -/
def round4 (v : ℚ) : ℚ :=
  ((rustRound (v * 10000) : ℚ)) / 10000

/-- `argmax3` (`regime.rs`): ties break toward the higher index. -/
def argmax3 (v : ℚ × ℚ × ℚ) : ℤ :=
  if v.2.2 ≥ v.2.1 ∧ v.2.2 ≥ v.1 then 2
  else if v.2.1 ≥ v.1 then 1
  else 0

/-- `normalize_regime_i32` (`regime.rs`): regimes outside `0..=2` are
rejected. -/
def normalize_regime_i32 (value : ℤ) : Option ℤ :=
  if BEARISH ≤ value ∧ value ≤ BULLISH then some value else none

/-- Stable descending insertion, modelling the Rust stable
`sort_by(|a, b| b.partial_cmp(a))` on the three probabilities in
`RegimeDetector::update` (only the sorted values are consumed). -/
def insertDesc (x : ℚ) : List ℚ → List ℚ
  | [] => [x]
  | y :: ys => if y < x then x :: y :: ys else y :: insertDesc x ys

/-- Stable descending sort (insertion sort). -/
def sortDesc : List ℚ → List ℚ
  | [] => []
  | x :: xs => insertDesc x (sortDesc xs)

/-- `RegimeDetector::remap_probs`: accumulate each raw state's probability
into its mapped label bucket (missing map entries default to label 1; labels
`≥ 3` are dropped). -/
def remap_probs (label_map : List ℕ) (raw_probs : List ℚ) : ℚ × ℚ × ℚ :=
  raw_probs.enum.foldl (fun acc iv =>
    let label := label_map.getD iv.1 1
    if label = 0 then (acc.1 + iv.2, acc.2.1, acc.2.2)
    else if label = 1 then (acc.1, acc.2.1 + iv.2, acc.2.2)
    else if label = 2 then (acc.1, acc.2.1, acc.2.2 + iv.2)
    else acc) (0, 0, 0)

/-- The pure step of `RegimeDetector::advance_tertiary_transition` on the
`TertiaryTransition` value (the detector method replaces its
`tertiary_transition` field with this). -/
def advance_tertiary_transition (tt : TertiaryTransition) (regime : ℤ) (now : ℚ) :
    TertiaryTransition :=
  let normRegime := (normalize_regime_i32 regime).getD RANGING
  if tt.changed_at ≤ 0 then
    { from_regime := normRegime
      to_regime := normRegime
      confirmation_count := 1
      confirmed := false
      changed_at := now
      transition_age_sec := 0 }
  else if normRegime ≠ tt.to_regime then
    { from_regime := tt.to_regime
      to_regime := normRegime
      confirmation_count := 1
      confirmed := false
      changed_at := now
      transition_age_sec := 0 }
  else
    let nextCount := max (tt.confirmation_count + 1) 1
    { tt with
      confirmation_count := nextCount
      transition_age_sec := max (now - tt.changed_at) 0
      confirmed := decide (tt.from_regime ≠ tt.to_regime ∧ 2 ≤ nextCount) }

/-- `RegimeDetector::update`.  Wall-clock time is the explicit `now`
parameter; the emission oracle parameters are threaded to
`predict_last_proba`.  Returns the (possibly unchanged) detector and the
`PyResult<RegimeState>` value. -/
def RegimeDetector.update (d : RegimeDetector) (closes volumes : List ℚ) (now : ℚ)
    (expF lnF : ℚ → ℚ) (piQ : ℚ) : RegimeDetector × Except String RegimeState :=
  if d._trained = false then (d, .ok d.state)
  else
    match d.extractor.extract_rows closes volumes with
    | .error e => (d, .error e)
    | .ok obs =>
      if obs = [] then (d, .ok d.state)
      else
        let start := obs.length - d.cfg.inference_window
        let tail := obs.drop start
        let rawProbs := match d.model with
          | some mdl => if mdl.trained then mdl.predict_last_proba expF lnF piQ tail
                        else [0, 1, 0]
          | none => [0, 1, 0]
        let labeled := remap_probs d.label_map rawProbs
        let p := normalize_probs labeled
        let regime := argmax3 p
        let sorted := sortDesc [p.1, p.2.1, p.2.2]
        let confidence := sorted.getD 0 0 - sorted.getD 1 0
        let biasSignal :=
          if confidence < d.cfg.confidence_threshold then 0
          else clamp ((p.2.2 - p.1) * d.cfg.bias_gain) (-1) 1
        let d2 := { d with state :=
          { regime := regime
            probabilities := [p.1, p.2.1, p.2.2]
            confidence := round4 confidence
            bias_signal := round4 biasSignal
            last_update_ts := now
            observation_count := tail.length } }
        let d3 := { d2 with tertiary_transition :=
          advance_tertiary_transition d2.tertiary_transition regime now }
        (d3, .ok d3.state)

/-- The flat key/value snapshot dictionary written by
`RegimeDetector::snapshot`, modelled as a typed record (every key is always
written, with exactly these contents). -/
structure Snapshot where
  regime_state : RegimeState
  last_train_ts : ℚ
  trained : Bool
  training_depth : ℤ
  quality_tier : String
  confidence_modifier : ℚ
  tertiary_transition : TertiaryTransition

/-- `RegimeDetector::snapshot`. -/
def RegimeDetector.snapshot (d : RegimeDetector) : Snapshot :=
  { regime_state := d.state
    last_train_ts := d._last_train_ts
    trained := d._trained
    training_depth := d.training_depth
    quality_tier := quality_tier_for_depth d.training_depth
    confidence_modifier := confidence_modifier_for_depth d.training_depth
    tertiary_transition := d.tertiary_transition }

/-- `TertiaryTransition::from_dict` on a dict holding exactly the fields of a
`TertiaryTransition` (as written by `snapshot`): regimes are normalized via
`dict_regime_i32` (out-of-range falls back to `RANGING`), the confirmation
count is floored at 0 and the age at 0. -/
def TertiaryTransition.from_dict (tt : TertiaryTransition) : TertiaryTransition :=
  { from_regime := (normalize_regime_i32 tt.from_regime).getD RANGING
    to_regime := (normalize_regime_i32 tt.to_regime).getD RANGING
    confirmation_count := max tt.confirmation_count 0
    confirmed := tt.confirmed
    changed_at := tt.changed_at
    transition_age_sec := max tt.transition_age_sec 0 }

/-- `RegimeDetector::restore_snapshot` applied to a snapshot dict that holds
every key (as produced by `snapshot`): the regime state is taken verbatim
(`RegimeState::from_dict` reads each present field exactly), the
tertiary transition goes through `TertiaryTransition::from_dict`, and the
training depth is floored at 0.  The `model` and `label_map` fields are not
touched. -/
def RegimeDetector.restore_snapshot (d : RegimeDetector) (snapshot : Snapshot) :
    RegimeDetector :=
  { d with
    state := snapshot.regime_state
    _last_train_ts := snapshot.last_train_ts
    _trained := snapshot.trained
    training_depth := max snapshot.training_depth 0
    tertiary_transition := snapshot.tertiary_transition.from_dict }

/-- `f64::clamp` from the Rust standard library: `none` models the panic when
`lo > hi` (with rational operands the NaN panics cannot fire). -/
def rustClamp (v lo hi : ℚ) : Option ℚ :=
  if lo ≤ hi then some (if v < lo then lo else if v > hi then hi else v)
  else none

/-- `compute_blended_idle_target` (`lib.rs`): blend the trend score and the
HMM bias, subtract from the base target scaled by the sensitivity, and clamp
to `[floor, ceiling]` with `f64::clamp` (so `none` when `floor > ceiling`). -/
def compute_blended_idle_target (trend_score hmm_bias blend_factor base_target
    sensitivity floor ceiling : ℚ) : Option ℚ :=
  match rustClamp blend_factor 0 1 with
  | none => none
  | some blend =>
    let blended := blend * trend_score + (1 - blend) * hmm_bias
    rustClamp (base_target - sensitivity * blended) floor ceiling

/-- A run of detector updates, projected onto the tertiary-transition state
machine: fold `advance_tertiary_transition` over `(regime, now)` pairs from
the default state. -/
def runTertiary (steps : List (ℤ × ℚ)) : TertiaryTransition :=
  steps.foldl (fun tt s => advance_tertiary_transition tt s.1 s.2)
    TertiaryTransition.defaultTT

/-- The confirmation invariant of `TertiaryTransition`. -/
def TTInv (tt : TertiaryTransition) : Prop :=
  tt.confirmed = true ↔ (tt.from_regime ≠ tt.to_regime ∧ 2 ≤ tt.confirmation_count)

/-- Field ranges that every reachable detector maintains on its tertiary
transition (regimes in `0..=2`, nonnegative count and age). -/
def TTCanonical (tt : TertiaryTransition) : Prop :=
  0 ≤ tt.from_regime ∧ tt.from_regime ≤ 2 ∧ 0 ≤ tt.to_regime ∧ tt.to_regime ≤ 2 ∧
    0 ≤ tt.confirmation_count ∧ 0 ≤ tt.transition_age_sec

instance (tt : TertiaryTransition) : Decidable (TTCanonical tt) := by
  unfold TTCanonical; infer_instance

/-- A normalized probability row of length `n`: sums to 1 (exactly, in the
rational embedding) with no negative entries. -/
def RowOk (n : ℕ) (l : List ℚ) : Prop :=
  l.length = n ∧ l.sum = 1 ∧ ∀ x ∈ l, 0 ≤ x

/-- The transition matrix is square with normalized rows. -/
def TransOk (m : GaussianHmm) : Prop :=
  m.transition_matrix.length = m.n_states ∧
    ∀ row ∈ m.transition_matrix, RowOk m.n_states row

/-- The invariant every constructed or fitted model maintains. -/
def ModelOk (m : GaussianHmm) : Prop :=
  2 ≤ m.n_states ∧ RowOk m.n_states m.initial_probs ∧ TransOk m

/-- Rows of `emission_likelihoods` have `n_states` entries, each `≥ EPS`
(regardless of the oracle values, because of the `.max(EPS)` floor). -/
def EmRow (n : ℕ) (r : List ℚ) : Prop :=
  r.length = n ∧ ∀ j < n, EPS ≤ r.getD j 0

/-- Payload of an `Except`, with a default for the error case. -/
def exceptOkD {ε α : Type _} (e : Except ε α) (d : α) : α :=
  match e with
  | .ok a => a
  | .error _ => d

/-- Whether an `Except` is an `Ok`. -/
def exceptIsOk {ε α : Type _} (e : Except ε α) : Bool :=
  match e with
  | .ok _ => true
  | .error _ => false

/-- A detector with the trained flag set but no model held, as left by a
snapshot restore into a fresh detector (extractor shrunk to period-1 windows
so a 3-point input already yields feature rows). -/
def detNoModel : RegimeDetector :=
  { RegimeDetector.new none with _trained := true, extractor := ⟨1, 1, 1, 1, 1, 1, 1⟩ }

/-! ## Theorems -/

theorem sumRange_zero (f : ℕ → ℚ) : sumRange 0 f = 0 := rfl

theorem sumRange_succ (n : ℕ) (f : ℕ → ℚ) :
    sumRange (n + 1) f = sumRange n f + f n := by
  simp [sumRange, List.range_succ]

theorem sumRange_congr {n : ℕ} {f g : ℕ → ℚ} (h : ∀ i < n, f i = g i) :
    sumRange n f = sumRange n g := by
  induction n with
  | zero => rfl
  | succ k ih =>
    rw [sumRange_succ, sumRange_succ, ih fun i hi => h i (Nat.lt_succ_of_lt hi),
      h k (Nat.lt_succ_self k)]

theorem sumRange_add (n : ℕ) (f g : ℕ → ℚ) :
    sumRange n (fun i => f i + g i) = sumRange n f + sumRange n g := by
  induction n with
  | zero => simp [sumRange_zero]
  | succ k ih => rw [sumRange_succ, sumRange_succ, sumRange_succ, ih]; ring

theorem sumRange_mul_left (n : ℕ) (c : ℚ) (f : ℕ → ℚ) :
    sumRange n (fun i => c * f i) = c * sumRange n f := by
  induction n with
  | zero => simp [sumRange_zero]
  | succ k ih => rw [sumRange_succ, sumRange_succ, ih]; ring

theorem sumRange_mul_right (n : ℕ) (c : ℚ) (f : ℕ → ℚ) :
    sumRange n (fun i => f i * c) = sumRange n f * c := by
  induction n with
  | zero => simp [sumRange_zero]
  | succ k ih => rw [sumRange_succ, sumRange_succ, ih]; ring

theorem sumRange_div (n : ℕ) (c : ℚ) (f : ℕ → ℚ) :
    sumRange n (fun i => f i / c) = sumRange n f / c := by
  simp only [div_eq_mul_inv]
  exact sumRange_mul_right n c⁻¹ f

theorem sumRange_nonneg {n : ℕ} {f : ℕ → ℚ} (h : ∀ i < n, 0 ≤ f i) :
    0 ≤ sumRange n f := by
  induction n with
  | zero => simp [sumRange_zero]
  | succ k ih =>
    rw [sumRange_succ]
    exact add_nonneg (ih fun i hi => h i (Nat.lt_succ_of_lt hi)) (h k (Nat.lt_succ_self k))

theorem sumRange_mono {n : ℕ} {f g : ℕ → ℚ} (h : ∀ i < n, f i ≤ g i) :
    sumRange n f ≤ sumRange n g := by
  induction n with
  | zero => simp [sumRange_zero]
  | succ k ih =>
    rw [sumRange_succ, sumRange_succ]
    exact add_le_add (ih fun i hi => h i (Nat.lt_succ_of_lt hi)) (h k (Nat.lt_succ_self k))

theorem sumRange_const (n : ℕ) (c : ℚ) : sumRange n (fun _ => c) = n * c := by
  induction n with
  | zero => simp [sumRange_zero]
  | succ k ih => rw [sumRange_succ, ih]; push_cast; ring

theorem sumRange_swap (n m : ℕ) (g : ℕ → ℕ → ℚ) :
    sumRange n (fun i => sumRange m (fun j => g i j)) =
      sumRange m (fun j => sumRange n (fun i => g i j)) := by
  induction n with
  | zero =>
    rw [sumRange_zero]
    rw [show (fun j => sumRange 0 fun i => g i j) = fun _ => (0 : ℚ) from rfl]
    rw [sumRange_const]; ring
  | succ k ih =>
    rw [sumRange_succ, ih, ← sumRange_add]
    exact sumRange_congr fun j _ => (sumRange_succ k fun i => g i j).symm

theorem sumRange_ite_eq {n : ℕ} (i : ℕ) (a : ℚ) (h : i < n) :
    sumRange n (fun j => if i = j then a else 0) = a := by
  induction n with
  | zero => exact absurd h (Nat.not_lt_zero i)
  | succ k ih =>
    rw [sumRange_succ]
    by_cases hik : i = k
    · subst hik
      rw [sumRange_congr (g := fun _ => (0 : ℚ)) fun j hj => by
        simp [Nat.ne_of_gt hj]]
      rw [sumRange_const]; simp
    · rw [ih (Nat.lt_of_le_of_ne (Nat.le_of_lt_succ h) hik)]
      simp [hik]

theorem sum_eq_sumRange (l : List ℚ) :
    l.sum = sumRange l.length (fun i => l.getD i 0) := by
  induction l with
  | nil => rfl
  | cons x xs ih =>
    have hshift : ∀ (n : ℕ) (f : ℕ → ℚ),
        sumRange (n + 1) f = f 0 + sumRange n (fun i => f (i + 1)) := by
      intro n
      induction n with
      | zero => intro f; simp [sumRange_succ, sumRange_zero]
      | succ k ihn =>
        intro f
        rw [sumRange_succ, ihn, sumRange_succ]
        ring
    rw [List.sum_cons, ih, List.length_cons, hshift]
    simp

theorem length_mapRange (n : ℕ) (f : ℕ → ℚ) : ((List.range n).map f).length = n := by
  simp

theorem getD_mapRange {α : Type _} {n i : ℕ} (f : ℕ → α) (h : i < n) (d : α) :
    ((List.range n).map f).getD i d = f i := by
  rw [List.getD_eq_getElem _ _ (by simpa using h)]
  simp

theorem getD_map_lt {α β : Type _} {l : List α} {i : ℕ} (f : α → β) (h : i < l.length)
    (d : β) : (l.map f).getD i d = f (l.get ⟨i, h⟩) := by
  rw [List.getD_eq_getElem _ _ (by simpa using h)]
  simp

theorem sum_map_div (l : List ℚ) (c : ℚ) : (l.map (· / c)).sum = l.sum / c := by
  induction l with
  | nil => simp
  | cons x xs ih => simp [ih, add_div]

theorem getLast?_mem_of_ne_nil {α : Type _} : ∀ (l : List α), l ≠ [] →
    ∃ x, l.getLast? = some x ∧ x ∈ l := by
  intro l
  induction l with
  | nil => intro h; exact absurd rfl h
  | cons a t ih =>
    intro _
    cases t with
    | nil => exact ⟨a, rfl, List.mem_singleton_self a⟩
    | cons b t2 =>
      obtain ⟨x, hx, hmem⟩ := ih (by simp)
      exact ⟨x, by rw [List.getLast?_cons_cons]; exact hx, List.mem_cons_of_mem a hmem⟩

theorem advance_preserves_TTInv (tt : TertiaryTransition) (r : ℤ) (now : ℚ) :
    TTInv (advance_tertiary_transition tt r now) := by
  unfold advance_tertiary_transition TTInv
  by_cases h1 : tt.changed_at ≤ 0
  · simp [h1]
  · rw [if_neg h1]
    by_cases h2 : (normalize_regime_i32 r).getD RANGING ≠ tt.to_regime
    · simp [h2]
    · simp [h2]

theorem runTertiary_TTInv (steps : List (ℤ × ℚ)) : TTInv (runTertiary steps) := by
  suffices h : ∀ (l : List (ℤ × ℚ)) (tt : TertiaryTransition), TTInv tt →
      TTInv (l.foldl (fun t s => advance_tertiary_transition t s.1 s.2) tt) by
    exact h steps TertiaryTransition.defaultTT (by simp [TTInv, TertiaryTransition.defaultTT])
  intro l
  induction l with
  | nil => intro tt htt; exact htt
  | cons s rest ih =>
    intro tt _
    exact ih _ (advance_preserves_TTInv tt s.1 s.2)

/-- C3: along any run of updates the `confirmed` flag holds exactly when the
transition changed regime (`from ≠ to`) and has been confirmed at least
twice; the first-ever update initializes `from = to = regime, count 1,
confirmed false`; a regime change resets `from` to the previous `to` with
count 1, confirmed false, age 0. -/
theorem tertiary_confirmed_iff (steps : List (ℤ × ℚ)) (r : ℤ) (now : ℚ)
    (tt : TertiaryTransition) (hr0 : 0 ≤ r) (hr2 : r ≤ 2)
    (hch : 0 < tt.changed_at) (hne : r ≠ tt.to_regime) :
    ((runTertiary steps).confirmed = true ↔
      ((runTertiary steps).from_regime ≠ (runTertiary steps).to_regime ∧
        2 ≤ (runTertiary steps).confirmation_count)) ∧
    advance_tertiary_transition TertiaryTransition.defaultTT r now =
      { from_regime := r, to_regime := r, confirmation_count := 1, confirmed := false,
        changed_at := now, transition_age_sec := 0 } ∧
    advance_tertiary_transition tt r now =
      { from_regime := tt.to_regime, to_regime := r, confirmation_count := 1,
        confirmed := false, changed_at := now, transition_age_sec := 0 } := by
  have hnorm : normalize_regime_i32 r = some r := by
    unfold normalize_regime_i32
    rw [if_pos ⟨hr0, hr2⟩]
  refine ⟨runTertiary_TTInv steps, ?_, ?_⟩
  · unfold advance_tertiary_transition
    simp [hnorm, TertiaryTransition.defaultTT]
  · unfold advance_tertiary_transition
    rw [if_neg (not_le.mpr hch)]
    simp [hnorm, hne]

theorem tertiary_confirmed_iff_witness :
    ((runTertiary [(1, 100), (2, 160), (2, 220)]).confirmed = true ↔
      ((runTertiary [(1, 100), (2, 160), (2, 220)]).from_regime ≠
          (runTertiary [(1, 100), (2, 160), (2, 220)]).to_regime ∧
        2 ≤ (runTertiary [(1, 100), (2, 160), (2, 220)]).confirmation_count)) ∧
    advance_tertiary_transition TertiaryTransition.defaultTT 2 160 =
      { from_regime := 2, to_regime := 2, confirmation_count := 1, confirmed := false,
        changed_at := 160, transition_age_sec := 0 } ∧
    advance_tertiary_transition ⟨1, 1, 3, false, 100, 0⟩ 2 160 =
      { from_regime := 1, to_regime := 2, confirmation_count := 1,
        confirmed := false, changed_at := 160, transition_age_sec := 0 } :=
  tertiary_confirmed_iff [(1, 100), (2, 160), (2, 220)] 2 160 ⟨1, 1, 3, false, 100, 0⟩
    (by decide) (by decide) (by decide) (by decide)

/-- C7: `extract_rows` returns the length-mismatch error exactly when the two
inputs differ in length, and an empty `Ok` result when the lengths agree but
fewer than 2 points are supplied. -/
theorem extract_rows_length_mismatch (fe : FeatureExtractor) (closes volumes : List ℚ) :
    (fe.extract_rows closes volumes =
        .error "closes and volumes must be same length" ↔
      closes.length ≠ volumes.length) ∧
    (closes.length = volumes.length → closes.length < 2 →
      fe.extract_rows closes volumes = .ok []) := by
  unfold FeatureExtractor.extract_rows
  by_cases h : closes.length ≠ volumes.length
  · rw [if_pos h]
    exact ⟨⟨fun _ => h, fun _ => rfl⟩, fun he => absurd he h⟩
  · rw [if_neg h]
    constructor
    · constructor
      · intro hcontra
        by_cases h2 : closes.length < 2 <;> simp [h2] at hcontra
      · intro hcontra; exact absurd hcontra h
    · intro _ h2
      rw [if_pos h2]

theorem extract_rows_length_mismatch_witness :
    FeatureExtractor.extract_rows FeatureExtractor.defaultCfg [1] [1] = .ok [] :=
  (extract_rows_length_mismatch FeatureExtractor.defaultCfg [1] [1]).2 rfl (by decide)

/-- C8 counterexample: with `floor = 1 > ceiling = 0` the final `f64::clamp`
call violates its `min ≤ max` precondition and the Rust code panics (modelled
by `none`), refuting "without panicking for every choice of floor and
ceiling". -/
theorem compute_blended_idle_target_panic_case :
    compute_blended_idle_target 0 0 0 0 0 1 0 = none := by decide

theorem rustClamp_le (v lo hi : ℚ) (h : lo ≤ hi) :
    ∃ x, rustClamp v lo hi = some x ∧ lo ≤ x ∧ x ≤ hi := by
  unfold rustClamp
  rw [if_pos h]
  refine ⟨_, rfl, ?_, ?_⟩
  · split_ifs with h1 h2
    · exact le_refl lo
    · exact h
    · exact le_of_not_lt h1
  · split_ifs with h1 h2
    · exact h
    · exact le_refl hi
    · exact le_of_not_lt h2

/-- C8 amended: whenever `floor ≤ ceiling`, `compute_blended_idle_target`
returns (without panicking) a value clamped into `[floor, ceiling]`. -/
theorem compute_blended_idle_target_clamped (trend_score hmm_bias blend_factor
    base_target sensitivity floor ceiling : ℚ) (h : floor ≤ ceiling) :
    ∃ v, compute_blended_idle_target trend_score hmm_bias blend_factor base_target
        sensitivity floor ceiling = some v ∧ floor ≤ v ∧ v ≤ ceiling := by
  unfold compute_blended_idle_target
  have h01 : rustClamp blend_factor 0 1 =
      some (if blend_factor < 0 then 0 else if blend_factor > 1 then 1 else blend_factor) := by
    unfold rustClamp
    rw [if_pos (by norm_num : (0 : ℚ) ≤ 1)]
  rw [h01]
  exact rustClamp_le _ floor ceiling h

theorem compute_blended_idle_target_clamped_witness :
    ∃ v, compute_blended_idle_target 0 0 0 0 0 0 1 = some v ∧ 0 ≤ v ∧ v ≤ 1 :=
  compute_blended_idle_target_clamped 0 0 0 0 0 0 1 (by norm_num)

/-- C10: every call to `update` (early return on untrained, extraction error,
empty rows, or a completed inference) leaves the configuration, extractor,
model, label map, trained flag, last-train timestamp and training depth
unchanged. -/
theorem update_frame (d : RegimeDetector) (closes volumes : List ℚ) (now : ℚ)
    (expF lnF : ℚ → ℚ) (piQ : ℚ) :
    ((d.update closes volumes now expF lnF piQ).1.cfg = d.cfg) ∧
    ((d.update closes volumes now expF lnF piQ).1.extractor = d.extractor) ∧
    ((d.update closes volumes now expF lnF piQ).1.model = d.model) ∧
    ((d.update closes volumes now expF lnF piQ).1.label_map = d.label_map) ∧
    ((d.update closes volumes now expF lnF piQ).1._trained = d._trained) ∧
    ((d.update closes volumes now expF lnF piQ).1._last_train_ts = d._last_train_ts) ∧
    ((d.update closes volumes now expF lnF piQ).1.training_depth = d.training_depth) := by
  unfold RegimeDetector.update
  split
  · exact ⟨rfl, rfl, rfl, rfl, rfl, rfl, rfl⟩
  · split
    · exact ⟨rfl, rfl, rfl, rfl, rfl, rfl, rfl⟩
    · split
      · exact ⟨rfl, rfl, rfl, rfl, rfl, rfl, rfl⟩
      · exact ⟨rfl, rfl, rfl, rfl, rfl, rfl, rfl⟩

theorem from_dict_id (tt : TertiaryTransition) (h : TTCanonical tt) :
    tt.from_dict = tt := by
  obtain ⟨h1, h2, h3, h4, h5, h6⟩ := h
  cases tt with
  | mk a b c cf ch ag =>
    unfold TertiaryTransition.from_dict normalize_regime_i32
    simp only at h1 h2 h3 h4 h5 h6
    rw [if_pos ⟨h1, h2⟩, if_pos ⟨h3, h4⟩]
    simp [max_eq_left h5, max_eq_left h6]

/-- C4: `snapshot()` then `restore_snapshot()` into a fresh detector
reproduces the regime state, tertiary transition, trained flag,
last-train timestamp and training depth exactly, and the restored detector
holds no model (learned parameters are not part of the snapshot record). -/
theorem snapshot_restore_roundtrip (d : RegimeDetector) (config : Option HmmConfig)
    (htt : TTCanonical d.tertiary_transition) (hdepth : 0 ≤ d.training_depth) :
    ((RegimeDetector.new config).restore_snapshot d.snapshot).state = d.state ∧
    ((RegimeDetector.new config).restore_snapshot d.snapshot).tertiary_transition =
      d.tertiary_transition ∧
    ((RegimeDetector.new config).restore_snapshot d.snapshot)._trained = d._trained ∧
    ((RegimeDetector.new config).restore_snapshot d.snapshot)._last_train_ts =
      d._last_train_ts ∧
    ((RegimeDetector.new config).restore_snapshot d.snapshot).training_depth =
      d.training_depth ∧
    ((RegimeDetector.new config).restore_snapshot d.snapshot).model = none :=
  ⟨rfl, from_dict_id d.tertiary_transition htt, rfl, rfl, max_eq_left hdepth, rfl⟩

theorem snapshot_restore_roundtrip_witness :
    (let dW : RegimeDetector := { RegimeDetector.new none with
      _trained := true, _last_train_ts := 123, training_depth := 7,
      tertiary_transition := ⟨0, 2, 3, true, 50, 9⟩ }
    ((RegimeDetector.new none).restore_snapshot dW.snapshot).state = dW.state ∧
    ((RegimeDetector.new none).restore_snapshot dW.snapshot).tertiary_transition =
      dW.tertiary_transition ∧
    ((RegimeDetector.new none).restore_snapshot dW.snapshot)._trained = dW._trained ∧
    ((RegimeDetector.new none).restore_snapshot dW.snapshot)._last_train_ts =
      dW._last_train_ts ∧
    ((RegimeDetector.new none).restore_snapshot dW.snapshot).training_depth =
      dW.training_depth ∧
    ((RegimeDetector.new none).restore_snapshot dW.snapshot).model = none) :=
  snapshot_restore_roundtrip
    { RegimeDetector.new none with
      _trained := true, _last_train_ts := 123, training_depth := 7,
      tertiary_transition := ⟨0, 2, 3, true, 50, 9⟩ } none (by decide) (by decide)

theorem getD_replicate_none {α : Type _} (n i : ℕ) :
    (List.replicate n (none : Option α)).getD i none = none := by
  induction n generalizing i with
  | zero => rfl
  | succ k ih =>
    cases i with
    | zero => rfl
    | succ j => rw [List.replicate_succ, List.getD_cons_succ]; exact ih j

theorem rsi_series_length (closes : List ℚ) (period : ℕ) :
    (rsi_series closes period).length = closes.length := by
  unfold rsi_series
  by_cases hnil : closes = []
  · subst hnil; rfl
  · rw [if_neg hnil]
    by_cases hle : closes.length ≤ max period 1
    · rw [if_pos hle]; exact List.length_replicate _ _
    · rw [if_neg hle]; simp

theorem rsi_series_getD_none_iff (closes : List ℚ) (period : ℕ) (i : ℕ)
    (hi : i < closes.length) :
    ((rsi_series closes period).getD i none = none ↔
      (closes.length ≤ max period 1 ∨ i < max period 1)) := by
  have hnil : closes ≠ [] := by
    intro hc; rw [hc] at hi; exact absurd hi (by simp)
  unfold rsi_series
  rw [if_neg hnil]
  by_cases hle : closes.length ≤ max period 1
  · rw [if_pos hle, getD_replicate_none]
    simp [hle]
  · rw [if_neg hle]
    dsimp only
    rw [getD_mapRange _ hi]
    by_cases hip : i < max period 1
    · simp [hip]
    · simp [hip, hle]

/-- C5 counterexample: with period 1 and closes `[0, 1]` (so `n = 2 > p = 1`)
the output at index `1 = p` is already defined, refuting "not-a-number at
every index ≤ p". -/
theorem rsi_series_defined_at_period :
    (rsi_series [0, 1] 1).getD 1 none ≠ none := by decide

/-- C5 amended: `rsi_series` has the input's length; when `n ≤ p` (for
`p = max period 1`) every entry is NaN; when `n > p` the entry at index `i`
is NaN exactly for `i < p`, i.e. defined from index `p` on. -/
theorem rsi_series_warmup (closes : List ℚ) (period : ℕ) :
    (rsi_series closes period).length = closes.length ∧
    (closes.length ≤ max period 1 → ∀ i < closes.length,
      (rsi_series closes period).getD i none = none) ∧
    (max period 1 < closes.length → ∀ i < closes.length,
      ((rsi_series closes period).getD i none = none ↔ i < max period 1)) := by
  refine ⟨rsi_series_length closes period, fun hle i hi => ?_, fun hlt i hi => ?_⟩
  · exact (rsi_series_getD_none_iff closes period i hi).mpr (Or.inl hle)
  · rw [rsi_series_getD_none_iff closes period i hi]
    simp [not_le.mpr hlt]

theorem rsi_series_warmup_witness :
    ((rsi_series [0, 1, 2] 1).getD 1 none = none ↔ 1 < max 1 1) :=
  (rsi_series_warmup [0, 1, 2] 1).2.2 (by decide) 1 (by decide)

theorem reduceOption_length_filter {α : Type _} : ∀ l : List (Option α),
    l.reduceOption.length + (l.filter (fun r => r.isNone)).length = l.length := by
  intro l
  induction l with
  | nil => rfl
  | cons h t ih =>
    cases h with
    | none => simp only [List.reduceOption_cons_of_none, List.filter_cons,
        Option.isNone_none, if_pos, List.length_cons]; omega
    | some a => simp only [List.reduceOption_cons_of_some, List.filter_cons,
        Option.isNone_some, List.length_cons]; simp; omega

theorem candidateRows_length (fe : FeatureExtractor) (closes volumes : List ℚ) :
    (fe.candidateRows closes volumes).length = closes.length := by
  unfold FeatureExtractor.candidateRows
  simp

theorem candidateRows_mem_some {fe : FeatureExtractor} {closes volumes : List ℚ}
    {r : List ℚ} (h : some r ∈ fe.candidateRows closes volumes) : r.length = 4 := by
  unfold FeatureExtractor.candidateRows at h
  dsimp only at h
  rw [List.mem_map] at h
  obtain ⟨i, _, heq⟩ := h
  revert heq
  cases hcase : (rsi_series closes (max fe.rsi_period 1)).getD i none with
  | none => intro heq; exact absurd heq (by simp)
  | some v =>
    intro heq
    rw [Option.some_inj] at heq
    rw [← heq]
    rfl

theorem candidateRows_none_of_short {fe : FeatureExtractor} {closes volumes : List ℚ}
    (hshort : closes.length ≤ 1) {r : Option (List ℚ)}
    (h : r ∈ fe.candidateRows closes volumes) : r.isNone = true := by
  unfold FeatureExtractor.candidateRows at h
  dsimp only at h
  rw [List.mem_map] at h
  obtain ⟨i, hi, heq⟩ := h
  rw [List.mem_range] at hi
  have hrsi : (rsi_series closes (max fe.rsi_period 1)).getD i none = none :=
    (rsi_series_getD_none_iff closes (max fe.rsi_period 1) i hi).mpr
      (Or.inl (le_trans hshort (le_max_right _ 1)))
  revert heq
  rw [hrsi]
  intro heq
  rw [← heq]
  rfl

/-- C6: on equal-length inputs `extract_rows` succeeds, every returned row
has its four (finite, being rationals) components, the output is never longer
than the input, and it is shorter exactly by the number of input indices whose
candidate row has a non-finite component (`isNone` in this embedding). -/
theorem extract_rows_all_finite (fe : FeatureExtractor) (closes volumes : List ℚ)
    (hlen : closes.length = volumes.length) :
    ∃ rows, fe.extract_rows closes volumes = .ok rows ∧
      (∀ r ∈ rows, r.length = 4) ∧
      rows.length ≤ closes.length ∧
      rows.length +
        ((fe.candidateRows closes volumes).filter (fun r => r.isNone)).length =
        closes.length := by
  unfold FeatureExtractor.extract_rows
  rw [if_neg (by simp [hlen])]
  by_cases h2 : closes.length < 2
  · rw [if_pos h2]
    have hfilter : (fe.candidateRows closes volumes).filter (fun r => r.isNone) =
        fe.candidateRows closes volumes :=
      List.filter_eq_self.mpr (fun a ha => candidateRows_none_of_short (by omega) ha)
    refine ⟨[], rfl, by simp, by simp, ?_⟩
    rw [hfilter, candidateRows_length]
    simp
  · rw [if_neg h2]
    have hkey := reduceOption_length_filter (fe.candidateRows closes volumes)
    rw [candidateRows_length] at hkey
    refine ⟨_, rfl, ?_, by omega, hkey⟩
    intro r hr
    exact candidateRows_mem_some (List.reduceOption_mem_iff.mp hr)

theorem EPS_pos : 0 < EPS := by norm_num [EPS]

theorem RowOk.getD_nonneg {n : ℕ} {l : List ℚ} (h : RowOk n l) (i : ℕ) :
    0 ≤ l.getD i 0 := by
  by_cases hi : i < l.length
  · rw [List.getD_eq_getElem _ _ hi]
    exact h.2.2 _ (List.getElem_mem hi)
  · rw [List.getD_eq_default _ _ (le_of_not_lt hi)]

theorem RowOk.sumRange_getD {n : ℕ} {l : List ℚ} (h : RowOk n l) :
    sumRange n (fun i => l.getD i 0) = 1 := by
  rw [← h.1, ← sum_eq_sumRange]
  exact h.2.1

theorem replicate_uniform_RowOk (n : ℕ) (hn : 1 ≤ n) :
    RowOk n (List.replicate n ((1 : ℚ) / n)) := by
  refine ⟨List.length_replicate _ _, ?_, ?_⟩
  · rw [List.sum_replicate, nsmul_eq_mul]
    have : (n : ℚ) ≠ 0 := by
      have h0 : n ≠ 0 := by omega
      exact_mod_cast h0
    field_simp
  · intro x hx
    rw [List.eq_of_mem_replicate hx]
    positivity

theorem normalize_pip_RowOk (l : List ℚ) (hne : l ≠ []) :
    RowOk l.length (normalize_probs_in_place l) := by
  have hlen1 : 1 ≤ l.length := List.length_pos.mpr hne
  unfold normalize_probs_in_place
  set cl := l.map (fun v => if v < 0 then 0 else v) with hcl
  have hlen : cl.length = l.length := by rw [hcl, List.length_map]
  have hnn : ∀ x ∈ cl, 0 ≤ x := by
    intro x hx
    rw [hcl, List.mem_map] at hx
    obtain ⟨y, _, hy⟩ := hx
    rw [← hy]
    split_ifs with hy0
    · exact le_refl 0
    · exact le_of_not_lt hy0
  by_cases hs : cl.sum ≤ EPS
  · rw [if_pos hs]
    have hmax : max l.length 1 = l.length := Nat.max_eq_left hlen1
    have hlq : (l.length : ℚ) ≠ 0 := by
      have h0 : l.length ≠ 0 := by omega
      exact_mod_cast h0
    refine ⟨by simp [hlen], ?_, ?_⟩
    · rw [List.map_const', List.sum_replicate, nsmul_eq_mul, hlen, hmax]
      field_simp
    · intro x hx
      rw [List.mem_map] at hx
      obtain ⟨y, _, hy⟩ := hx
      rw [← hy, hmax]
      positivity
  · rw [if_neg hs]
    have hspos : 0 < cl.sum := lt_trans EPS_pos (not_le.mp hs)
    refine ⟨by simp [hlen], ?_, ?_⟩
    · rw [sum_map_div, div_self hspos.ne']
    · intro x hx
      rw [List.mem_map] at hx
      obtain ⟨y, hy, hyx⟩ := hx
      rw [← hyx]
      exact div_nonneg (hnn y hy) hspos.le

theorem default_transition_Ok (n : ℕ) (hn : 2 ≤ n) :
    (default_transition n).length = n ∧ ∀ row ∈ default_transition n, RowOk n row := by
  have hne1 : n ≠ 1 := by omega
  have hnq : ((n : ℚ) - 1) ≠ 0 := by
    have : (2 : ℚ) ≤ n := by exact_mod_cast hn
    linarith
  have hoffd : 0 ≤ (1 / 5 : ℚ) / ((n : ℚ) - 1) := by
    apply div_nonneg (by norm_num)
    have : (2 : ℚ) ≤ n := by exact_mod_cast hn
    linarith
  unfold default_transition
  rw [if_neg hne1]
  dsimp only
  refine ⟨by simp, ?_⟩
  intro row hrow
  rw [List.mem_map] at hrow
  obtain ⟨i, hi, hrow⟩ := hrow
  rw [List.mem_range] at hi
  rw [← hrow]
  refine ⟨by simp, ?_, ?_⟩
  · show sumRange n (fun j => if i = j then (4 / 5 : ℚ) else (1 / 5) / ((n : ℚ) - 1)) = 1
    rw [sumRange_congr (g := fun j => (1 / 5 : ℚ) / ((n : ℚ) - 1) +
        (if i = j then (4 / 5 : ℚ) - (1 / 5) / ((n : ℚ) - 1) else 0))
      (fun j _ => by
        dsimp only
        by_cases hij : i = j
        · rw [if_pos hij, if_pos hij]; ring
        · rw [if_neg hij, if_neg hij]; ring)]
    rw [sumRange_add, sumRange_const, sumRange_ite_eq i _ hi]
    field_simp
    ring
  · intro x hx
    rw [List.mem_map] at hx
    obtain ⟨j, _, hj⟩ := hx
    rw [← hj]
    split_ifs
    · norm_num
    · exact hoffd

theorem emission_rows_EmRow (m : GaussianHmm) (expF lnF : ℚ → ℚ) (piQ : ℚ)
    (observations : List (List ℚ)) :
    ∀ r ∈ m.emission_likelihoods expF lnF piQ observations, EmRow m.n_states r := by
  intro r hr
  unfold GaussianHmm.emission_likelihoods at hr
  rw [List.mem_map] at hr
  obtain ⟨row, _, heq⟩ := hr
  dsimp only at heq
  rw [← heq]
  constructor
  · simp
  · intro j hj
    have hjlen : j < ((List.range m.n_states).map
        (fun s => m.gaussian_logpdf_diag lnF piQ row s)).length := by simpa using hj
    rw [getD_map_lt _ hjlen]
    exact le_max_right _ _

/-- The common normalization step of the scaled forward pass: a row of the
form `w s * e s` over states, divided by its sum floored at `EPS`, is a
normalized probability row whenever the weights are nonnegative and sum to 1
and the emission entries are `≥ EPS`. -/
theorem normalizedScaledRow_RowOk {n : ℕ} {w : ℕ → ℚ} {e : List ℚ}
    (hw : ∀ s < n, 0 ≤ w s) (hsum : sumRange n w = 1)
    (he : ∀ j < n, EPS ≤ e.getD j 0) :
    RowOk n (((List.range n).map (fun s => w s * e.getD s 0)).map
      (· / (if ((List.range n).map (fun s => w s * e.getD s 0)).sum ≤ EPS then EPS
        else ((List.range n).map (fun s => w s * e.getD s 0)).sum))) := by
  set un := (List.range n).map (fun s => w s * e.getD s 0) with hun
  have hun_sum : un.sum = sumRange n (fun s => w s * e.getD s 0) := rfl
  have hun_nonneg : ∀ x ∈ un, 0 ≤ x := by
    intro x hx
    rw [hun, List.mem_map] at hx
    obtain ⟨s, hs, hsx⟩ := hx
    rw [List.mem_range] at hs
    rw [← hsx]
    exact mul_nonneg (hw s hs) (le_trans EPS_pos.le (he s hs))
  have hbound : EPS ≤ un.sum := by
    rw [hun_sum]
    calc EPS = sumRange n w * EPS := by rw [hsum]; ring
    _ = sumRange n (fun s => w s * EPS) := (sumRange_mul_right n EPS w).symm
    _ ≤ sumRange n (fun s => w s * e.getD s 0) :=
        sumRange_mono (fun s hs => mul_le_mul_of_nonneg_left (he s hs) (hw s hs))
  have hsceq : (if un.sum ≤ EPS then EPS else un.sum) = un.sum := by
    split_ifs with h
    · exact (le_antisymm h hbound).symm
    · rfl
  have hscpos : 0 < un.sum := lt_of_lt_of_le EPS_pos hbound
  rw [hsceq]
  refine ⟨by simp [hun], ?_, ?_⟩
  · rw [sum_map_div, div_self hscpos.ne']
  · intro x hx
    rw [List.mem_map] at hx
    obtain ⟨y, hy, hyx⟩ := hx
    rw [← hyx]
    exact div_nonneg (hun_nonneg y hy) hscpos.le

theorem forwardStep_RowOk (m : GaussianHmm) (htm : TransOk m) {prev et : List ℚ}
    (hprev : RowOk m.n_states prev) (het : ∀ j < m.n_states, EPS ≤ et.getD j 0) :
    RowOk m.n_states (m.forwardStep prev et).1 := by
  unfold GaussianHmm.forwardStep
  dsimp only
  apply normalizedScaledRow_RowOk (w := fun j => sumRange m.n_states
    (fun i => prev.getD i 0 * ((m.transition_matrix.getD i []).getD j 0)))
  · intro s _
    apply sumRange_nonneg
    intro i hi
    apply mul_nonneg (hprev.getD_nonneg i)
    have hrow : m.transition_matrix.getD i [] ∈ m.transition_matrix := by
      rw [List.getD_eq_getElem _ _ (by rw [htm.1]; exact hi)]
      exact List.getElem_mem _
    exact (htm.2 _ hrow).getD_nonneg s
  · rw [sumRange_swap]
    have hrowsum : ∀ i < m.n_states,
        sumRange m.n_states (fun j => prev.getD i 0 *
          ((m.transition_matrix.getD i []).getD j 0)) = prev.getD i 0 := by
      intro i hi
      have hrow : m.transition_matrix.getD i [] ∈ m.transition_matrix := by
        rw [List.getD_eq_getElem _ _ (by rw [htm.1]; exact hi)]
        exact List.getElem_mem _
      rw [sumRange_mul_left, (htm.2 _ hrow).sumRange_getD, mul_one]
    rw [sumRange_congr hrowsum]
    exact hprev.sumRange_getD
  · exact het

theorem forwardRows_RowOk (m : GaussianHmm) (htm : TransOk m) :
    ∀ (ems : List (List ℚ)) (prev : List ℚ), RowOk m.n_states prev →
      (∀ r ∈ ems, EmRow m.n_states r) →
      ∀ row ∈ (m.forwardRows prev ems).1, RowOk m.n_states row := by
  intro ems
  induction ems with
  | nil =>
    intro prev _ _ row hrow
    exact absurd hrow (by simp [GaussianHmm.forwardRows])
  | cons et rest ih =>
    intro prev hprev hems row hrow
    unfold GaussianHmm.forwardRows at hrow
    dsimp only at hrow
    have hstep : RowOk m.n_states (m.forwardStep prev et).1 :=
      forwardStep_RowOk m htm hprev (hems et (List.mem_cons_self et rest)).2
    rcases List.mem_cons.mp hrow with h | h
    · rw [h]; exact hstep
    · exact ih _ hstep (fun r hr => hems r (List.mem_cons_of_mem _ hr)) row h

theorem forward_scaled_RowOk (m : GaussianHmm) (hm : ModelOk m)
    {ems : List (List ℚ)} (hems : ∀ r ∈ ems, EmRow m.n_states r) :
    ∀ row ∈ (m.forward_scaled ems).1, RowOk m.n_states row := by
  cases ems with
  | nil =>
    intro row hrow
    exact absurd hrow (by simp [GaussianHmm.forward_scaled])
  | cons e0 rest =>
    intro row hrow
    unfold GaussianHmm.forward_scaled at hrow
    dsimp only at hrow
    have ha0 : RowOk m.n_states (((List.range m.n_states).map
        (fun s => m.initial_probs.getD s 0 * e0.getD s 0)).map
          (· / (if ((List.range m.n_states).map
              (fun s => m.initial_probs.getD s 0 * e0.getD s 0)).sum ≤ EPS then EPS
            else ((List.range m.n_states).map
              (fun s => m.initial_probs.getD s 0 * e0.getD s 0)).sum))) := by
      apply normalizedScaledRow_RowOk
      · intro s _; exact hm.2.1.getD_nonneg s
      · exact hm.2.1.sumRange_getD
      · exact (hems e0 (List.mem_cons_self e0 rest)).2
    rcases List.mem_cons.mp hrow with h | h
    · rw [h]; exact ha0
    · exact forwardRows_RowOk m hm.2.2 rest _ ha0
        (fun r hr => hems r (List.mem_cons_of_mem _ hr)) row h

theorem default_probs_RowOk (m : GaussianHmm) (hns : 2 ≤ m.n_states) :
    RowOk m.n_states m.default_probs := by
  unfold GaussianHmm.default_probs
  by_cases h3 : m.n_states = 3
  · rw [if_pos h3, h3]
    refine ⟨rfl, by norm_num, ?_⟩
    intro x hx
    fin_cases hx <;> norm_num
  · rw [if_neg h3]
    exact replicate_uniform_RowOk m.n_states (by omega)

theorem betaAt_length (m : GaussianHmm) (emissions : List (List ℚ)) (scales : List ℚ)
    (k : ℕ) : (m.betaAt emissions scales k).length = m.n_states := by
  cases k with
  | zero => exact List.length_replicate _ _
  | succ j => simp [GaussianHmm.betaAt]

theorem gamma_head_length (m : GaussianHmm) {ems : List (List ℚ)} (hne : ems ≠ [])
    (scales : List ℚ) :
    ((compute_gamma (m.forward_scaled ems).1
        (m.backward_scaled ems scales)).headD []).length = m.n_states := by
  obtain ⟨e0, rest, rfl⟩ := List.exists_cons_of_ne_nil hne
  unfold GaussianHmm.forward_scaled GaussianHmm.backward_scaled
  dsimp only
  rw [List.length_cons, List.range_succ_eq_map, List.map_cons]
  unfold compute_gamma
  rw [List.zipWith_cons_cons, List.headD_cons]
  dsimp only
  rw [List.length_map, List.length_zipWith, betaAt_length]
  simp

theorem normalize_pip_RowOk_of_length {n : ℕ} {l : List ℚ} (hn : 1 ≤ n)
    (hlen : l.length = n) : RowOk n (normalize_probs_in_place l) := by
  have hne : l ≠ [] := by
    intro hc
    rw [hc] at hlen
    simp at hlen
    omega
  have h := normalize_pip_RowOk l hne
  rw [hlen] at h
  exact h

theorem transMap_TransOk {n : ℕ} (hn : 2 ≤ n) (oldTM : List (List ℚ))
    (holdlen : oldTM.length = n) (hold : ∀ row ∈ oldTM, RowOk n row)
    (g : ℕ → ℚ) (xs : ℕ → ℕ → ℚ) :
    ((List.range n).map (fun i => if g i ≤ EPS then oldTM.getD i []
        else normalize_probs_in_place ((List.range n).map (fun j => xs i j)))).length = n ∧
    ∀ row ∈ (List.range n).map (fun i => if g i ≤ EPS then oldTM.getD i []
        else normalize_probs_in_place ((List.range n).map (fun j => xs i j))),
      RowOk n row := by
  refine ⟨by simp, ?_⟩
  intro row hrow
  rw [List.mem_map] at hrow
  obtain ⟨i, hi, hrow⟩ := hrow
  rw [List.mem_range] at hi
  rw [← hrow]
  split_ifs
  · have hmem : oldTM.getD i [] ∈ oldTM := by
      rw [List.getD_eq_getElem _ _ (by rw [holdlen]; exact hi)]
      exact List.getElem_mem _
    exact hold _ hmem
  · exact normalize_pip_RowOk_of_length (by omega) (by simp)

theorem emStep_ModelOk (m : GaussianHmm) (observations : List (List ℚ))
    (expF lnF : ℚ → ℚ) (piQ : ℚ) (hm : ModelOk m) (hobs : observations ≠ []) :
    ModelOk (m.emStep observations expF lnF piQ) := by
  obtain ⟨hns, hip, htm⟩ := hm
  have hemne : m.emission_likelihoods expF lnF piQ observations ≠ [] := by
    unfold GaussianHmm.emission_likelihoods
    simpa using hobs
  have hlen := gamma_head_length m hemne
    (m.forward_scaled (m.emission_likelihoods expF lnF piQ observations)).2
  have htr := transMap_TransOk hns m.transition_matrix htm.1 htm.2
    (fun i => ((m.compute_xi_sums
      (m.forward_scaled (m.emission_likelihoods expF lnF piQ observations)).1
      (m.backward_scaled (m.emission_likelihoods expF lnF piQ observations)
        (m.forward_scaled (m.emission_likelihoods expF lnF piQ observations)).2)
      (m.emission_likelihoods expF lnF piQ observations)).2.getD i 0))
    (fun i j => ((m.compute_xi_sums
      (m.forward_scaled (m.emission_likelihoods expF lnF piQ observations)).1
      (m.backward_scaled (m.emission_likelihoods expF lnF piQ observations)
        (m.forward_scaled (m.emission_likelihoods expF lnF piQ observations)).2)
      (m.emission_likelihoods expF lnF piQ observations)).1.getD i []).getD j 0 /
      (m.compute_xi_sums
        (m.forward_scaled (m.emission_likelihoods expF lnF piQ observations)).1
        (m.backward_scaled (m.emission_likelihoods expF lnF piQ observations)
          (m.forward_scaled (m.emission_likelihoods expF lnF piQ observations)).2)
        (m.emission_likelihoods expF lnF piQ observations)).2.getD i 0)
  have h1n : 1 ≤ m.n_states := by omega
  exact ⟨hns, normalize_pip_RowOk_of_length h1n hlen, htr.1, htr.2⟩

theorem init_ModelOk (m : GaussianHmm) (observations : List (List ℚ))
    (hns : 2 ≤ m.n_states) : ModelOk (m.init_from_data observations) := by
  have hdt := default_transition_Ok m.n_states hns
  exact ⟨hns, replicate_uniform_RowOk m.n_states (by omega), hdt.1, hdt.2⟩

theorem foldl_emStep_ModelOk (observations : List (List ℚ)) (expF lnF : ℚ → ℚ)
    (piQ : ℚ) (hobs : observations ≠ []) :
    ∀ (l : List ℕ) (m : GaussianHmm), ModelOk m →
      ModelOk (l.foldl (fun mm _ => mm.emStep observations expF lnF piQ) m) := by
  intro l
  induction l with
  | nil => intro m hm; exact hm
  | cons a rest ih =>
    intro m hm
    exact ih _ (emStep_ModelOk m observations expF lnF piQ hm hobs)

/-- C1: every successful `fit` on a freshly constructed 4-feature model with
at least 2 observations (any state count, any iteration count, any emission
oracle) yields `initial_probs` summing to 1 within `1e-9` with no negative
entries, and every transition-matrix row summing to 1 within `1e-9` with no
negative entries — including rows left at their previous (already normalized)
value because their expected occupancy was `≤ EPS`. -/
theorem fit_model_probs_normalized (n_states n_iter : ℕ) (observations : List (List ℚ))
    (expF lnF : ℚ → ℚ) (piQ : ℚ) (h2 : 2 ≤ observations.length) :
    ∃ m, (GaussianHmm.new n_states 4).fit observations n_iter expF lnF piQ = .ok m ∧
      |m.initial_probs.sum - 1| ≤ 1 / 10 ^ 9 ∧ (∀ x ∈ m.initial_probs, 0 ≤ x) ∧
      ∀ row ∈ m.transition_matrix, |row.sum - 1| ≤ 1 / 10 ^ 9 ∧ ∀ x ∈ row, 0 ≤ x := by
  have hobs : observations ≠ [] := by
    intro hc
    rw [hc] at h2
    simp at h2
  unfold GaussianHmm.fit
  rw [if_neg (by omega), if_neg (fun hc => hc rfl)]
  dsimp only
  have hM := foldl_emStep_ModelOk observations expF lnF piQ hobs
    (List.range (max n_iter 1))
    ((GaussianHmm.new n_states 4).init_from_data observations)
    (init_ModelOk _ observations (le_max_right n_states 2))
  obtain ⟨hns, hip, htm⟩ := hM
  refine ⟨_, rfl, ?_, ?_, ?_⟩
  · rw [show ({ (List.range (max n_iter 1)).foldl
        (fun mm _ => mm.emStep observations expF lnF piQ)
        ((GaussianHmm.new n_states 4).init_from_data observations) with
        trained := true, training_depth := observations.length } :
          GaussianHmm).initial_probs.sum = 1 from hip.2.1]
    norm_num
  · exact hip.2.2
  · intro row hrow
    have hr := htm.2 row hrow
    exact ⟨by rw [hr.2.1]; norm_num, hr.2.2⟩

theorem fit_model_probs_normalized_witness :
    ∃ m, (GaussianHmm.new 3 4).fit [[0, 0, 0, 0], [1, 1, 1, 1]] 1 id id 3 = .ok m ∧
      |m.initial_probs.sum - 1| ≤ 1 / 10 ^ 9 ∧ (∀ x ∈ m.initial_probs, 0 ≤ x) ∧
      ∀ row ∈ m.transition_matrix, |row.sum - 1| ≤ 1 / 10 ^ 9 ∧ ∀ x ∈ row, 0 ≤ x :=
  fit_model_probs_normalized 3 1 [[0, 0, 0, 0], [1, 1, 1, 1]] id id 3 (by decide)

theorem forward_scaled_ne_nil (m : GaussianHmm) {ems : List (List ℚ)} (hne : ems ≠ []) :
    (m.forward_scaled ems).1 ≠ [] := by
  obtain ⟨e0, rest, rfl⟩ := List.exists_cons_of_ne_nil hne
  unfold GaussianHmm.forward_scaled
  dsimp only
  exact List.cons_ne_nil _ _

/-- C2: `predict_last_proba` on a nonempty window, for an untrained model or
any model satisfying the fitted invariant, returns a vector of length
`n_states` that is entrywise nonnegative and sums to 1 within `1e-6`. -/
theorem predict_last_proba_normalized (m : GaussianHmm) (observations : List (List ℚ))
    (expF lnF : ℚ → ℚ) (piQ : ℚ) (hns : 2 ≤ m.n_states)
    (htr : m.trained = true → ModelOk m) (hobs : observations ≠ []) :
    (m.predict_last_proba expF lnF piQ observations).length = m.n_states ∧
    (∀ x ∈ m.predict_last_proba expF lnF piQ observations, 0 ≤ x) ∧
    |(m.predict_last_proba expF lnF piQ observations).sum - 1| ≤ 1 / 10 ^ 6 := by
  unfold GaussianHmm.predict_last_proba
  by_cases htrained : m.trained = false
  · rw [if_pos (Or.inl htrained)]
    have hd := default_probs_RowOk m hns
    exact ⟨hd.1, hd.2.2, by rw [hd.2.1]; norm_num⟩
  · have hmOk : ModelOk m := htr (by revert htrained; cases m.trained <;> simp)
    rw [if_neg (not_or.mpr ⟨htrained, hobs⟩)]
    dsimp only
    have hemne : m.emission_likelihoods expF lnF piQ observations ≠ [] := by
      unfold GaussianHmm.emission_likelihoods
      simpa using hobs
    obtain ⟨x, hlast, hmem⟩ := getLast?_mem_of_ne_nil _ (forward_scaled_ne_nil m hemne)
    rw [hlast, Option.getD_some]
    have hrow := forward_scaled_RowOk m hmOk
      (emission_rows_EmRow m expF lnF piQ observations) x hmem
    exact ⟨hrow.1, hrow.2.2, by rw [hrow.2.1]; norm_num⟩

theorem predict_last_proba_normalized_witness :
    ((GaussianHmm.new 3 4).predict_last_proba id id 3 [[0, 0, 0, 0]]).length =
      (GaussianHmm.new 3 4).n_states ∧
    (∀ x ∈ (GaussianHmm.new 3 4).predict_last_proba id id 3 [[0, 0, 0, 0]], 0 ≤ x) ∧
    |((GaussianHmm.new 3 4).predict_last_proba id id 3 [[0, 0, 0, 0]]).sum - 1| ≤
      1 / 10 ^ 6 :=
  predict_last_proba_normalized (GaussianHmm.new 3 4) [[0, 0, 0, 0]] id id 3
    (by decide) (fun h => absurd h (by decide)) (by decide)

theorem extract_rows_all_finite_witness :
    ∃ rows, FeatureExtractor.extract_rows ⟨1, 1, 1, 1, 1, 1, 1⟩ [1, 2, 3] [1, 1, 1] =
        .ok rows ∧
      (∀ r ∈ rows, r.length = 4) ∧
      rows.length ≤ ([1, 2, 3] : List ℚ).length ∧
      rows.length +
        (((⟨1, 1, 1, 1, 1, 1, 1⟩ : FeatureExtractor).candidateRows [1, 2, 3]
            [1, 1, 1]).filter (fun r => r.isNone)).length =
        ([1, 2, 3] : List ℚ).length :=
  extract_rows_all_finite ⟨1, 1, 1, 1, 1, 1, 1⟩ [1, 2, 3] [1, 1, 1] rfl

theorem round4_one : round4 1 = 1 := by
  unfold round4 rustRound
  rw [if_neg (by norm_num : ¬ (1 : ℚ) * 10000 < 0)]
  rw [show ⌊(1 : ℚ) * 10000 + 1 / 2⌋ = 10000 by
    rw [Int.floor_eq_iff]
    constructor <;> norm_num]
  norm_num

theorem round4_zero : round4 0 = 0 := by
  unfold round4 rustRound
  rw [if_neg (by norm_num : ¬ (0 : ℚ) * 10000 < 0)]
  rw [show ⌊(0 : ℚ) * 10000 + 1 / 2⌋ = 0 by
    rw [Int.floor_eq_iff]
    constructor <;> norm_num]
  norm_num

/-- C9: a detector whose trained flag is set but which holds no model (the
state left by restoring a `_hmm_trained = true` snapshot into a fresh
detector) performs no fresh inference on `update`: with the identity label
map the returned state carries the fixed fallback probabilities `[0, 1, 0]`,
regime RANGING, confidence 1, bias 0. -/
theorem update_without_model_fallback (d : RegimeDetector) (closes volumes : List ℚ)
    (now : ℚ) (expF lnF : ℚ → ℚ) (piQ : ℚ)
    (htrained : d._trained = true) (hmodel : d.model = none)
    (hlm : d.label_map = [0, 1, 2])
    (hok : exceptIsOk (d.extractor.extract_rows closes volumes) = true)
    (hne : exceptOkD (d.extractor.extract_rows closes volumes) [] ≠ []) :
    ∃ s, (d.update closes volumes now expF lnF piQ).2 = .ok s ∧
      s.probabilities = [0, 1, 0] ∧ s.regime = RANGING ∧
      s.confidence = 1 ∧ s.bias_signal = 0 := by
  unfold RegimeDetector.update
  rw [if_neg (by rw [htrained]; simp)]
  cases hr : d.extractor.extract_rows closes volumes with
  | error e =>
    rw [hr] at hok
    exact absurd hok (by simp [exceptIsOk])
  | ok obs =>
    have hobs : obs ≠ [] := by
      rw [hr] at hne
      simpa [exceptOkD] using hne
    dsimp only
    rw [if_neg hobs, hmodel, hlm]
    dsimp only
    have h1 : remap_probs [0, 1, 2] [0, 1, 0] = ((0 : ℚ), (1 : ℚ), (0 : ℚ)) := by
      norm_num [remap_probs, List.enum, List.enumFrom, List.getD]
      decide
    have h2 : normalize_probs ((0 : ℚ), (1 : ℚ), (0 : ℚ)) = (0, 1, 0) := by
      norm_num [normalize_probs]
    rw [h1, h2]
    have hargm : argmax3 ((0 : ℚ), (1 : ℚ), (0 : ℚ)) = 1 := by decide
    have hsort : sortDesc [(0 : ℚ), 1, 0] = [1, 0, 0] := by decide
    rw [hargm, hsort]
    dsimp only
    rw [show ([1, 0, 0] : List ℚ).getD 0 0 - ([1, 0, 0] : List ℚ).getD 1 0 = 1 by simp]
    refine ⟨_, rfl, rfl, rfl, round4_one, ?_⟩
    by_cases hth : (1 : ℚ) < d.cfg.confidence_threshold
    · rw [if_pos hth]
      exact round4_zero
    · rw [if_neg hth]
      rw [show ((0 : ℚ) - 0) * d.cfg.bias_gain = 0 by ring]
      rw [show clamp 0 (-1) 1 = 0 by decide]
      exact round4_zero

theorem update_without_model_fallback_witness :
    ∃ s, (detNoModel.update [1, 2, 3] [1, 1, 1] 7 id id 3).2 = .ok s ∧
      s.probabilities = [0, 1, 0] ∧ s.regime = RANGING ∧
      s.confidence = 1 ∧ s.bias_signal = 0 :=
  update_without_model_fallback detNoModel
    [1, 2, 3] [1, 1, 1] 7 id id 3 rfl rfl rfl (by decide) (by decide)

end DogeHmm
